import Mathlib

/-!
# OpenMIC-2018 baseline notebook: verified embedding

Shallow embedding of the core of `1-modeling-xgb.ipynb`:
the train/test split partitioner (cell-24), the per-class data
preparation (mask selection, time averaging, label thresholding,
cell-28), and the metric aggregation (`np.mean` over per-class
precision/recall/F1 lists).

Conventions: numpy float arrays are modelled as lists of rationals,
boolean arrays as lists of `Bool`, `set` membership as list
membership, and Python exceptions as an `Except` error channel.
-/

namespace OpenMic

/-- Python exceptions that the partition loop can surface. -/
inductive PyError where
  | runtimeError (msg : String) : PyError
  | indexError (msg : String) : PyError
deriving DecidableEq, Repr

/-- The message numpy produces when a 1-D array is indexed by a string. -/
def npStringIndexMsg : String :=
  "only integers, slices, ellipsis, numpy.newaxis and integer or boolean arrays are valid indices"

/-- Indexing a 1-D numpy array of strings with a *string* index, as in the
source's `sample_key[n]` where `n` is itself a sample key: numpy rejects
non-integer indices, so this always raises `IndexError`. -/
def npIndexByString (_arr : List String) (_s : String) : Except PyError String :=
  .error (.indexError npStringIndexMsg)

/-- The body of the partition loop of cell-24:

    for idx, n in enumerate(sample_key):
        if n in train_set: idx_train.append(idx)
        elif n in test_set: idx_test.append(idx)
        else: raise RuntimeError('Unknown sample key={}! Abort!'.format(sample_key[n]))

`pairs` is the remaining enumerated suffix; `idx_train`/`idx_test` are the
accumulators.  In the `else` branch the source first evaluates
`sample_key[n]` (string indexing, see `npIndexByString`) to build the
message, and only then would raise the `RuntimeError`. -/
def partitionGo (sample_key train_set test_set : List String) :
    List (Nat × String) → List Nat → List Nat → Except PyError (List Nat × List Nat)
  | [], idx_train, idx_test => .ok (idx_train, idx_test)
  | (idx, n) :: rest, idx_train, idx_test =>
      if n ∈ train_set then
        partitionGo sample_key train_set test_set rest (idx_train ++ [idx]) idx_test
      else if n ∈ test_set then
        partitionGo sample_key train_set test_set rest idx_train (idx_test ++ [idx])
      else
        match npIndexByString sample_key n with
        | .error e => .error e
        | .ok s => .error (.runtimeError ("Unknown sample key=" ++ s ++ "! Abort!"))

/-- The partitioner of cell-24: iterate `enumerate(sample_key)` once,
classifying each row index into `idx_train` or `idx_test`. -/
def partitionKeys (sample_key train_set test_set : List String) :
    Except PyError (List Nat × List Nat) :=
  partitionGo sample_key train_set test_set sample_key.enum [] []

/-- Spec-side description: the row positions of the train ClipKeys, in
iteration order over the full key sequence. -/
def trainRowIdx (sample_key train_set : List String) : List Nat :=
  (sample_key.enum.filter (fun p => p.2 ∈ train_set)).map Prod.fst

/-- Spec-side description: the row positions of the test ClipKeys, in
iteration order over the full key sequence. -/
def testRowIdx (sample_key test_set : List String) : List Nat :=
  (sample_key.enum.filter (fun p => p.2 ∈ test_set)).map Prod.fst

/-- Unfolding of the partition loop on inputs where every key is in
`train_set` or `test_set`: it succeeds, train rows are the positions whose
key is in `train_set`, and test rows are the positions whose key is in
`test_set` but (because of the `elif`) not in `train_set`. -/
lemma partitionGo_eq_of_cover (sk tr te : List String) (pairs : List (Nat × String))
    (accT accE : List Nat)
    (hcov : ∀ p ∈ pairs, p.2 ∈ tr ∨ p.2 ∈ te) :
    partitionGo sk tr te pairs accT accE =
      .ok (accT ++ (pairs.filter (fun p => p.2 ∈ tr)).map Prod.fst,
           accE ++ (pairs.filter (fun p => p.2 ∉ tr ∧ p.2 ∈ te)).map Prod.fst) := by
  induction pairs generalizing accT accE with
  | nil => simp [partitionGo]
  | cons hd tl ih =>
    obtain ⟨idx, n⟩ := hd
    have hcov' : ∀ p ∈ tl, p.2 ∈ tr ∨ p.2 ∈ te := fun p hp => hcov p (List.mem_cons_of_mem _ hp)
    by_cases htr : n ∈ tr
    · rw [show partitionGo sk tr te ((idx, n) :: tl) accT accE =
          partitionGo sk tr te tl (accT ++ [idx]) accE by simp [partitionGo, htr]]
      rw [ih _ _ hcov']
      simp [htr, List.append_assoc]
    · by_cases hte : n ∈ te
      · rw [show partitionGo sk tr te ((idx, n) :: tl) accT accE =
            partitionGo sk tr te tl accT (accE ++ [idx]) by simp [partitionGo, htr, hte]]
        rw [ih _ _ hcov']
        simp [htr, hte, List.append_assoc]
      · exact absurd (hcov (idx, n) (List.mem_cons_self _ _)) (by simp [htr, hte])

lemma snd_mem_of_mem_enum {α : Type} {p : Nat × α} {l : List α} (h : p ∈ l.enum) : p.2 ∈ l := by
  rw [List.mem_enum_iff_getElem?] at h
  exact List.getElem?_mem h

lemma mem_rowIdx_iff (sk s : List String) (i : Nat) :
    i ∈ (sk.enum.filter (fun p => p.2 ∈ s)).map Prod.fst ↔
      ∃ h : i < sk.length, sk.get ⟨i, h⟩ ∈ s := by
  constructor
  · intro hm
    obtain ⟨pr, hpr, hfst⟩ := List.mem_map.mp hm
    obtain ⟨hen, hs⟩ := List.mem_filter.mp hpr
    rw [List.mem_enum_iff_getElem?] at hen
    subst hfst
    have hlt : pr.1 < sk.length := by
      by_contra hge
      rw [List.getElem?_eq_none (Nat.le_of_not_lt hge)] at hen
      exact Option.noConfusion hen
    refine ⟨hlt, ?_⟩
    have hval : sk[pr.1] = pr.2 := by
      rw [List.getElem?_eq_getElem hlt] at hen
      exact Option.some.inj hen
    rw [List.get_eq_getElem, hval]
    exact of_decide_eq_true hs
  · rintro ⟨h, hs⟩
    refine List.mem_map.mpr ⟨(i, sk.get ⟨i, h⟩), List.mem_filter.mpr ⟨?_, by simpa using hs⟩, rfl⟩
    rw [List.mk_mem_enum_iff_getElem?]
    simp [List.getElem?_eq_getElem h]

lemma rowIdx_sorted (sk s : List String) :
    List.Sorted (· < ·) ((sk.enum.filter (fun p => p.2 ∈ s)).map Prod.fst) := by
  have hsub : ((sk.enum.filter (fun p => p.2 ∈ s)).map Prod.fst).Sublist (sk.enum.map Prod.fst) :=
    (List.filter_sublist _).map _
  rw [List.enum_map_fst] at hsub
  exact (List.sorted_lt_range _).sublist hsub

lemma filter_test_eq_of_disjoint (sk tr te : List String) (hdisj : ∀ k, k ∈ tr → k ∉ te) :
    sk.enum.filter (fun p => p.2 ∉ tr ∧ p.2 ∈ te) = sk.enum.filter (fun p => p.2 ∈ te) := by
  apply List.filter_congr
  intro p _
  by_cases hte : p.2 ∈ te
  · have htr : p.2 ∉ tr := fun h => hdisj p.2 h hte
    simp [hte, htr]
  · simp [hte]

lemma rowIdx_length_add (sk tr te : List String)
    (hcov : ∀ k ∈ sk, k ∈ tr ∨ k ∈ te) (hdisj : ∀ k, k ∈ tr → k ∉ te) :
    (trainRowIdx sk tr).length + (testRowIdx sk te).length = sk.length := by
  unfold trainRowIdx testRowIdx
  rw [List.length_map, List.length_map]
  have hcongr : sk.enum.filter (fun p => p.2 ∈ te) =
      sk.enum.filter (fun p => !(decide (p.2 ∈ tr))) := by
    apply List.filter_congr
    intro p hp
    rcases hcov p.2 (snd_mem_of_mem_enum hp) with h | h
    · simp [h, hdisj p.2 h]
    · by_cases htr : p.2 ∈ tr
      · exact absurd h (hdisj p.2 htr)
      · simp [h, htr]
  rw [hcongr]
  have hlen := List.length_eq_length_filter_add (l := sk.enum) (fun p => decide (p.2 ∈ tr))
  rw [List.enum_length] at hlen
  omega

/-- C1: on a full key sequence covered by two disjoint split sets, the
partitioner of cell-24 succeeds and returns exactly the row positions of
train keys and of test keys in iteration order over the full sequence;
every row index below N lands in exactly one of the two outputs, both
outputs are strictly increasing (original row order), and the lengths sum
to N. -/
theorem partitioner_correct (sk tr te : List String)
    (hcov : ∀ k ∈ sk, k ∈ tr ∨ k ∈ te)
    (hdisj : ∀ k, k ∈ tr → k ∉ te) :
    partitionKeys sk tr te = .ok (trainRowIdx sk tr, testRowIdx sk te) ∧
    (∀ i, i < sk.length →
      (i ∈ trainRowIdx sk tr ∧ i ∉ testRowIdx sk te) ∨
      (i ∉ trainRowIdx sk tr ∧ i ∈ testRowIdx sk te)) ∧
    List.Sorted (· < ·) (trainRowIdx sk tr) ∧
    List.Sorted (· < ·) (testRowIdx sk te) ∧
    (trainRowIdx sk tr).length + (testRowIdx sk te).length = sk.length := by
  refine ⟨?_, ?_, rowIdx_sorted sk tr, rowIdx_sorted sk te, rowIdx_length_add sk tr te hcov hdisj⟩
  · unfold partitionKeys trainRowIdx testRowIdx
    rw [partitionGo_eq_of_cover sk tr te sk.enum [] []
      (fun p hp => hcov p.2 (snd_mem_of_mem_enum hp))]
    rw [filter_test_eq_of_disjoint sk tr te hdisj]
    simp
  · intro i hi
    have hmemi : sk.get ⟨i, hi⟩ ∈ sk := sk.get_mem i hi
    by_cases htr : sk.get ⟨i, hi⟩ ∈ tr
    · left
      refine ⟨(mem_rowIdx_iff sk tr i).mpr ⟨hi, htr⟩, fun hcon => ?_⟩
      obtain ⟨h', hte⟩ := (mem_rowIdx_iff sk te i).mp hcon
      exact hdisj _ htr (by convert hte)
    · right
      have hte : sk.get ⟨i, hi⟩ ∈ te := (hcov _ hmemi).resolve_left htr
      refine ⟨fun hcon => ?_, (mem_rowIdx_iff sk te i).mpr ⟨hi, hte⟩⟩
      obtain ⟨h', htr'⟩ := (mem_rowIdx_iff sk tr i).mp hcon
      exact htr (by convert htr')

/-- Witness for C1: the theorem applied at a concrete three-key dataset. -/
theorem partitioner_correct_witness :
    partitionKeys ["a", "b", "c"] ["a", "c"] ["b"] =
      .ok (trainRowIdx ["a", "b", "c"] ["a", "c"], testRowIdx ["a", "b", "c"] ["b"]) ∧
    trainRowIdx ["a", "b", "c"] ["a", "c"] = [0, 2] ∧
    testRowIdx ["a", "b", "c"] ["b"] = [1] :=
  ⟨(partitioner_correct ["a", "b", "c"] ["a", "c"] ["b"] (by decide) (by decide)).1,
   by decide, by decide⟩

lemma mem_filterIdx_iff (sk : List String) (q : String → Bool) (i : Nat) :
    i ∈ (sk.enum.filter (fun p => q p.2)).map Prod.fst ↔
      ∃ h : i < sk.length, q (sk.get ⟨i, h⟩) = true := by
  constructor
  · intro hm
    obtain ⟨pr, hpr, hfst⟩ := List.mem_map.mp hm
    obtain ⟨hen, hs⟩ := List.mem_filter.mp hpr
    rw [List.mem_enum_iff_getElem?] at hen
    subst hfst
    have hlt : pr.1 < sk.length := by
      by_contra hge
      rw [List.getElem?_eq_none (Nat.le_of_not_lt hge)] at hen
      exact Option.noConfusion hen
    have hval : sk[pr.1] = pr.2 := by
      rw [List.getElem?_eq_getElem hlt] at hen
      exact Option.some.inj hen
    exact ⟨hlt, by rw [List.get_eq_getElem, hval]; exact hs⟩
  · rintro ⟨h, hs⟩
    refine List.mem_map.mpr ⟨(i, sk.get ⟨i, h⟩), List.mem_filter.mpr ⟨?_, hs⟩, rfl⟩
    rw [List.mk_mem_enum_iff_getElem?]
    simp [List.getElem?_eq_getElem h]

/-- C6 (actual behavior at the failing input): on a dataset whose single
key is in neither split set, the run aborts — but with the `IndexError`
raised by evaluating `sample_key[n]` (string indexing) while formatting
the message, never with the intended `RuntimeError` naming the offending
key. -/
theorem unknown_key_aborts_with_index_error :
    partitionKeys ["zzz"] [] [] = .error (PyError.indexError npStringIndexMsg) ∧
    ∀ m : String, partitionKeys ["zzz"] [] [] ≠ .error (PyError.runtimeError m) := by
  refine ⟨rfl, fun m h => ?_⟩
  rw [show partitionKeys ["zzz"] [] [] = .error (PyError.indexError npStringIndexMsg)
    from rfl] at h
  exact PyError.noConfusion (Except.error.inj h)

/-- C8 counterexample: a key belonging to both split sets does not make
the run fail — the partitioner succeeds, classifying the key's row as a
training row. -/
theorem duplicate_key_no_error_counterexample :
    partitionKeys ["a"] ["a"] ["a"] = .ok ([0], []) := rfl

/-- C8 amended: a ClipKey present in both the train set and the test set
is not detected: the run raises no error and silently partitions the
data (the `if`/`elif` chain of cell-24 never checks for overlap). -/
theorem duplicate_key_silently_partitioned (sk tr te : List String) (k : String)
    (hcov : ∀ k' ∈ sk, k' ∈ tr ∨ k' ∈ te)
    (_hktr : k ∈ tr) (_hkte : k ∈ te) :
    ∃ idxTrain idxTest, partitionKeys sk tr te = .ok (idxTrain, idxTest) := by
  unfold partitionKeys
  rw [partitionGo_eq_of_cover sk tr te sk.enum [] []
    (fun p hp => hcov p.2 (snd_mem_of_mem_enum hp))]
  exact ⟨_, _, rfl⟩

/-- Witness for the amended C8 at a concrete overlapping input. -/
theorem duplicate_key_silently_partitioned_witness :
    ∃ idxTrain idxTest, partitionKeys ["x"] ["x"] ["x"] = .ok (idxTrain, idxTest) :=
  duplicate_key_silently_partitioned ["x"] ["x"] ["x"] "x" (by decide) (by decide) (by decide)

/-- C10: a ClipKey that is a member of both split sets has its row index
appended to `idx_train` only, never to `idx_test`, and no error is
raised: train-set membership is tested before test-set membership. -/
theorem overlap_key_classified_as_train (sk tr te : List String) (i : Nat) (hi : i < sk.length)
    (hcov : ∀ k ∈ sk, k ∈ tr ∨ k ∈ te)
    (htr : sk.get ⟨i, hi⟩ ∈ tr) (_hte : sk.get ⟨i, hi⟩ ∈ te) :
    ∃ idxTrain idxTest, partitionKeys sk tr te = .ok (idxTrain, idxTest) ∧
      i ∈ idxTrain ∧ i ∉ idxTest := by
  refine ⟨(sk.enum.filter (fun p => p.2 ∈ tr)).map Prod.fst,
          (sk.enum.filter (fun p => p.2 ∉ tr ∧ p.2 ∈ te)).map Prod.fst, ?_, ?_, ?_⟩
  · unfold partitionKeys
    rw [partitionGo_eq_of_cover sk tr te sk.enum [] []
      (fun p hp => hcov p.2 (snd_mem_of_mem_enum hp))]
    simp
  · exact (mem_rowIdx_iff sk tr i).mpr ⟨hi, htr⟩
  · intro hcon
    obtain ⟨h', hq⟩ := (mem_filterIdx_iff sk (fun n => decide (n ∉ tr ∧ n ∈ te)) i).mp hcon
    have : sk.get ⟨i, h'⟩ ∉ tr ∧ sk.get ⟨i, h'⟩ ∈ te := of_decide_eq_true hq
    exact this.1 (by convert htr)

/-- Witness for C10: overlapping key at row 0 lands in the train output. -/
theorem overlap_key_classified_as_train_witness :
    ∃ idxTrain idxTest, partitionKeys ["a", "b"] ["a"] ["a", "b"] = .ok (idxTrain, idxTest) ∧
      0 ∈ idxTrain ∧ 0 ∉ idxTest :=
  overlap_key_classified_as_train ["a", "b"] ["a"] ["a", "b"] 0 (by decide) (by decide)
    (by decide) (by decide)

/-! ## Per-class data preparation (cell-28) -/

/-- numpy fancy row indexing `arr[idx]`: the rows listed in `idx`. -/
def npRows {α : Type} (arr : List α) (idx : List Nat) (dflt : α) : List α :=
  idx.map (fun i => arr.getD i dflt)

/-- numpy column slice `rows[:, c]` of a 2-D boolean array. -/
def npColB (rows : List (List Bool)) (c : Nat) : List Bool :=
  rows.map (fun r => r.getD c false)

/-- numpy column slice `rows[:, c]` of a 2-D float array. -/
def npColQ (rows : List (List ℚ)) (c : Nat) : List ℚ :=
  rows.map (fun r => r.getD c 0)

/-- numpy boolean-mask row selection `arr[mask]`: keep the entries of
`xs` at the positions where `mask` is true, in order. -/
def npBoolSelect {α : Type} (mask : List Bool) (xs : List α) : List α :=
  (mask.zip xs).filterMap (fun p => if p.1 then some p.2 else none)

/-- The four arrays of `openmic-2018.npz`: `X` (N x T x D features),
`Y_true` (N x C soft labels), `Y_mask` (N x C annotation mask) and the
N sample keys. -/
structure OpenMicData where
  X : List (List (List ℚ))
  Y_true : List (List ℚ)
  Y_mask : List (List Bool)
  sample_key : List String

/-- `X_train = X[idx_train]` (cell-18). -/
def X_train (d : OpenMicData) (idx_train : List Nat) : List (List (List ℚ)) :=
  npRows d.X idx_train []

/-- `X_test = X[idx_test]` (cell-18). -/
def X_test (d : OpenMicData) (idx_test : List Nat) : List (List (List ℚ)) :=
  npRows d.X idx_test []

/-- `Y_true_train = Y_true[idx_train]` (cell-18). -/
def Y_true_train (d : OpenMicData) (idx_train : List Nat) : List (List ℚ) :=
  npRows d.Y_true idx_train []

/-- `Y_true_test = Y_true[idx_test]` (cell-18). -/
def Y_true_test (d : OpenMicData) (idx_test : List Nat) : List (List ℚ) :=
  npRows d.Y_true idx_test []

/-- `Y_mask_train = Y_mask[idx_train]` (cell-18). -/
def Y_mask_train (d : OpenMicData) (idx_train : List Nat) : List (List Bool) :=
  npRows d.Y_mask idx_train []

/-- `Y_mask_test = Y_mask[idx_test]` (cell-18). -/
def Y_mask_test (d : OpenMicData) (idx_test : List Nat) : List (List Bool) :=
  npRows d.Y_mask idx_test []

/-- `train_inst = Y_mask_train[:, inst_num]` (cell-28). -/
def train_inst (d : OpenMicData) (idx_train : List Nat) (c : Nat) : List Bool :=
  npColB (Y_mask_train d idx_train) c

/-- `test_inst = Y_mask_test[:, inst_num]` (cell-28). -/
def test_inst (d : OpenMicData) (idx_test : List Nat) (c : Nat) : List Bool :=
  npColB (Y_mask_test d idx_test) c

/-- `X_train_inst = X_train[train_inst]` (cell-28). -/
def X_train_inst (d : OpenMicData) (idx_train : List Nat) (c : Nat) : List (List (List ℚ)) :=
  npBoolSelect (train_inst d idx_train c) (X_train d idx_train)

/-- `X_test_inst = X_test[test_inst]` (cell-28). -/
def X_test_inst (d : OpenMicData) (idx_test : List Nat) (c : Nat) : List (List (List ℚ)) :=
  npBoolSelect (test_inst d idx_test c) (X_test d idx_test)

/-- Elementwise sum of a stack of vectors (the reduction behind
`np.mean(..., axis=1)` applied to one clip's T x D slice matrix). -/
def vecSum : List (List ℚ) → List ℚ
  | [] => []
  | [v] => v
  | v :: rest => List.zipWith (fun a b => a + b) v (vecSum rest)

/-- Mean over the time axis for one clip: the elementwise sum of its T
slice vectors divided by T. -/
def meanOverSlices (slices : List (List ℚ)) : List ℚ :=
  (vecSum slices).map (fun x => x / (slices.length : ℚ))

/-- `X_train_inst_sklearn = np.mean(X_train_inst, axis=1)` (cell-28). -/
def X_train_inst_sklearn (d : OpenMicData) (idx_train : List Nat) (c : Nat) : List (List ℚ) :=
  (X_train_inst d idx_train c).map meanOverSlices

/-- `X_test_inst_sklearn = np.mean(X_test_inst, axis=1)` (cell-28). -/
def X_test_inst_sklearn (d : OpenMicData) (idx_test : List Nat) (c : Nat) : List (List ℚ) :=
  (X_test_inst d idx_test c).map meanOverSlices

/-- The `>= 0.5` label thresholding of cell-28. -/
def binarize (p : ℚ) : Bool := decide ((0.5 : ℚ) ≤ p)

/-- `Y_true_train_inst = Y_true_train[train_inst, inst_num] >= 0.5` (cell-28). -/
def Y_true_train_inst (d : OpenMicData) (idx_train : List Nat) (c : Nat) : List Bool :=
  (npBoolSelect (train_inst d idx_train c) (npColQ (Y_true_train d idx_train) c)).map binarize

/-- `Y_true_test_inst = Y_true_test[test_inst, inst_num] >= 0.5` (cell-28). -/
def Y_true_test_inst (d : OpenMicData) (idx_test : List Nat) (c : Nat) : List Bool :=
  (npBoolSelect (test_inst d idx_test c) (npColQ (Y_true_test d idx_test) c)).map binarize

/-! Spec-side characterizations of the selection, in terms of original
dataset rows. -/

/-- Entry of the mask matrix at (row, class). -/
def maskAt (d : OpenMicData) (r c : Nat) : Bool := (d.Y_mask.getD r []).getD c false

/-- Entry of the soft-label matrix at (row, class). -/
def labelAt (d : OpenMicData) (r c : Nat) : ℚ := (d.Y_true.getD r []).getD c 0

/-- Row `r` of the feature tensor. -/
def featRow (d : OpenMicData) (r : Nat) : List (List ℚ) := d.X.getD r []

/-- The original rows selected for class `c` out of an index subset:
exactly those whose mask entry for `c` is true. -/
def selRows (d : OpenMicData) (idx : List Nat) (c : Nat) : List Nat :=
  idx.filter (fun r => maskAt d r c)

/-- Features of the selected rows. -/
def selFeatures (d : OpenMicData) (idx : List Nat) (c : Nat) : List (List (List ℚ)) :=
  (selRows d idx c).map (featRow d)

/-- Soft labels of the selected rows for class `c`. -/
def selSoftLabels (d : OpenMicData) (idx : List Nat) (c : Nat) : List ℚ :=
  (selRows d idx c).map (fun r => labelAt d r c)

/-- Binarized labels of the selected rows for class `c`. -/
def selLabels (d : OpenMicData) (idx : List Nat) (c : Nat) : List Bool :=
  (selSoftLabels d idx c).map binarize

lemma npBoolSelect_map_map {α β : Type} (l : List α) (p : α → Bool) (f : α → β) :
    npBoolSelect (l.map p) (l.map f) = (l.filter p).map f := by
  induction l with
  | nil => rfl
  | cons a tl ih =>
    simp only [List.map_cons, npBoolSelect, List.zip_cons_cons, List.filterMap_cons] at *
    by_cases hp : p a
    · simp only [hp, if_pos, List.filter_cons_of_pos, List.map_cons]
      exact congrArg (f a :: ·) ih
    · simp only [hp, if_neg, List.filter_cons_of_neg, Bool.not_eq_true]
      simpa [hp] using ih

lemma train_inst_eq (d : OpenMicData) (idx : List Nat) (c : Nat) :
    train_inst d idx c = idx.map (fun r => maskAt d r c) := by
  unfold train_inst npColB Y_mask_train npRows
  rw [List.map_map]
  rfl

lemma test_inst_eq (d : OpenMicData) (idx : List Nat) (c : Nat) :
    test_inst d idx c = idx.map (fun r => maskAt d r c) := by
  unfold test_inst npColB Y_mask_test npRows
  rw [List.map_map]
  rfl

lemma X_train_inst_eq (d : OpenMicData) (idx : List Nat) (c : Nat) :
    X_train_inst d idx c = selFeatures d idx c := by
  unfold X_train_inst selFeatures
  rw [train_inst_eq]
  rw [show X_train d idx = idx.map (featRow d) from rfl]
  rw [npBoolSelect_map_map]
  rfl

lemma X_test_inst_eq (d : OpenMicData) (idx : List Nat) (c : Nat) :
    X_test_inst d idx c = selFeatures d idx c := by
  unfold X_test_inst selFeatures
  rw [test_inst_eq]
  rw [show X_test d idx = idx.map (featRow d) from rfl]
  rw [npBoolSelect_map_map]
  rfl

lemma Y_true_train_inst_eq (d : OpenMicData) (idx : List Nat) (c : Nat) :
    Y_true_train_inst d idx c = selLabels d idx c := by
  unfold Y_true_train_inst selLabels selSoftLabels
  rw [train_inst_eq]
  rw [show npColQ (Y_true_train d idx) c = idx.map (fun r => labelAt d r c) by
    unfold npColQ Y_true_train npRows
    rw [List.map_map]
    rfl]
  rw [npBoolSelect_map_map]
  rfl

lemma Y_true_test_inst_eq (d : OpenMicData) (idx : List Nat) (c : Nat) :
    Y_true_test_inst d idx c = selLabels d idx c := by
  unfold Y_true_test_inst selLabels selSoftLabels
  rw [test_inst_eq]
  rw [show npColQ (Y_true_test d idx) c = idx.map (fun r => labelAt d r c) by
    unfold npColQ Y_true_test npRows
    rw [List.map_map]
    rfl]
  rw [npBoolSelect_map_map]
  rfl

/-- A small concrete dataset used by the witnesses: 4 clips, 2 time
slices, 2 feature dimensions, 2 classes. -/
def dEx : OpenMicData where
  X := [[[1, 1], [3, 3]], [[0, 2], [2, 0]], [[5, 5], [5, 5]], [[1, 0], [0, 1]]]
  Y_true := [[0.9, 0.1], [0.5, 0.4999], [0.2, 0.3], [0.7, 0.1]]
  Y_mask := [[true, true], [true, true], [true, false], [false, true]]
  sample_key := ["k0", "k1", "k2", "k3"]

/-- C2: for a class `c`, the rows feeding the class-`c` classifier are
exactly `selRows` — the index-subset rows whose mask entry for `c` is
true — on the train side and the test side alike, for features and for
labels; and every such row has a true mask entry.  So no row with a false
mask entry for `c` ever contributes to training, testing or metrics of
class `c`. -/
theorem mask_row_invariant (d : OpenMicData) (idxTr idxTe : List Nat) (c r : Nat)
    (hr : r ∈ selRows d idxTr c ∨ r ∈ selRows d idxTe c) :
    maskAt d r c = true ∧
    X_train_inst d idxTr c = selFeatures d idxTr c ∧
    Y_true_train_inst d idxTr c = selLabels d idxTr c ∧
    X_test_inst d idxTe c = selFeatures d idxTe c ∧
    Y_true_test_inst d idxTe c = selLabels d idxTe c := by
  refine ⟨?_, X_train_inst_eq d idxTr c, Y_true_train_inst_eq d idxTr c,
    X_test_inst_eq d idxTe c, Y_true_test_inst_eq d idxTe c⟩
  rcases hr with h | h <;> exact (List.mem_filter.mp h).2

/-- Witness for C2 on the concrete dataset: row 0 is selected for class 0
out of the train subset `[0, 1, 2]`, and its mask entry holds. -/
theorem mask_row_invariant_witness :
    maskAt dEx 0 0 = true ∧
    X_train_inst dEx [0, 1, 2] 0 = selFeatures dEx [0, 1, 2] 0 ∧
    Y_true_train_inst dEx [0, 1, 2] 0 = selLabels dEx [0, 1, 2] 0 ∧
    X_test_inst dEx [3] 0 = selFeatures dEx [3] 0 ∧
    Y_true_test_inst dEx [3] 0 = selLabels dEx [3] 0 :=
  mask_row_invariant dEx [0, 1, 2] [3] 0 0 (Or.inl (by decide))

/-- C3: the label binarization of cell-28 is the inclusive `>= 0.5`
threshold — true exactly when the soft label is at least 0.5, with 0.5
mapping to true and 0.4999 to false — and the train side and the test
side apply this same `binarize` elementwise to their selected soft
labels. -/
theorem threshold_boundary (d : OpenMicData) (idxTr idxTe : List Nat) (c : Nat) (p : ℚ) :
    (binarize p = true ↔ (0.5 : ℚ) ≤ p) ∧
    binarize (0.5 : ℚ) = true ∧
    binarize (0.4999 : ℚ) = false ∧
    Y_true_train_inst d idxTr c = (selSoftLabels d idxTr c).map binarize ∧
    Y_true_test_inst d idxTe c = (selSoftLabels d idxTe c).map binarize :=
  ⟨decide_eq_true_iff, by with_unfolding_all decide, by with_unfolding_all decide,
   Y_true_train_inst_eq d idxTr c, Y_true_test_inst_eq d idxTe c⟩

lemma vecSum_length (slices : List (List ℚ)) (D : Nat)
    (hrect : ∀ s ∈ slices, s.length = D) (hne : slices ≠ []) :
    (vecSum slices).length = D := by
  induction slices with
  | nil => exact absurd rfl hne
  | cons v tl ih =>
    cases tl with
    | nil => simpa [vecSum] using hrect v (by simp)
    | cons w tl' =>
      rw [show vecSum (v :: w :: tl') = List.zipWith (fun a b => a + b) v (vecSum (w :: tl'))
        from rfl]
      rw [List.length_zipWith]
      have h1 : v.length = D := hrect v (by simp)
      have h2 : (vecSum (w :: tl')).length = D :=
        ih (fun s hs => hrect s (List.mem_cons_of_mem _ hs)) (by simp)
      omega

lemma vecSum_getD (slices : List (List ℚ)) (D d : Nat)
    (hrect : ∀ s ∈ slices, s.length = D) (hd : d < D) :
    (vecSum slices).getD d 0 = (slices.map (fun s => s.getD d 0)).sum := by
  induction slices with
  | nil => simp [vecSum]
  | cons v tl ih =>
    cases tl with
    | nil => simp [vecSum]
    | cons w tl' =>
      have h1 : v.length = D := hrect v (by simp)
      have h2 : (vecSum (w :: tl')).length = D :=
        vecSum_length _ D (fun s hs => hrect s (List.mem_cons_of_mem _ hs)) (by simp)
      rw [show vecSum (v :: w :: tl') = List.zipWith (fun a b => a + b) v (vecSum (w :: tl'))
        from rfl]
      have hlen : (List.zipWith (fun a b => a + b) v (vecSum (w :: tl'))).length = D := by
        rw [List.length_zipWith]
        omega
      rw [List.getD_eq_getElem _ 0 (by omega : d < _)]
      rw [List.getElem_zipWith]
      rw [List.map_cons, List.sum_cons]
      have hdv : d < v.length := by omega
      have hdw : d < (vecSum (w :: tl')).length := by omega
      rw [(List.getD_eq_getElem v 0 hdv).symm, (List.getD_eq_getElem (vecSum (w :: tl')) 0 hdw).symm,
        ih (fun s hs => hrect s (List.mem_cons_of_mem _ hs))]

/-- C4: the feature reduction of cell-28 maps each selected row's T x D
slice matrix to the elementwise arithmetic mean of its T time-slice
vectors: entry d of the reduced vector is the sum of the slices' entries
at d divided by T, on the train side and the test side alike. -/
theorem time_reduction_mean (dd : OpenMicData) (idx : List Nat) (c : Nat)
    (slices : List (List ℚ)) (D d : Nat)
    (hrect : ∀ s ∈ slices, s.length = D) (hne : slices ≠ []) (hd : d < D) :
    X_train_inst_sklearn dd idx c = (X_train_inst dd idx c).map meanOverSlices ∧
    X_test_inst_sklearn dd idx c = (X_test_inst dd idx c).map meanOverSlices ∧
    (meanOverSlices slices).length = D ∧
    (meanOverSlices slices).getD d 0 =
      (slices.map (fun s => s.getD d 0)).sum / (slices.length : ℚ) := by
  have hlen : (vecSum slices).length = D := vecSum_length slices D hrect hne
  refine ⟨rfl, rfl, ?_, ?_⟩
  · rw [show meanOverSlices slices = (vecSum slices).map (fun x => x / (slices.length : ℚ))
      from rfl]
    rw [List.length_map]
    exact hlen
  · rw [show meanOverSlices slices = (vecSum slices).map (fun x => x / (slices.length : ℚ))
      from rfl]
    rw [List.getD_eq_getElem _ 0 (by rw [List.length_map]; omega : d < _)]
    rw [List.getElem_map]
    have hdv : d < (vecSum slices).length := by omega
    rw [(List.getD_eq_getElem (vecSum slices) 0 hdv).symm]
    rw [vecSum_getD slices D d hrect hd]

/-- Witness for C4: for T = 2 slices `[1, 1]` and `[3, 3]` the reduction
yields `[2, 2]`, and the theorem applies at that input. -/
theorem time_reduction_mean_witness :
    meanOverSlices [[1, 1], [3, 3]] = [2, 2] ∧
    (X_train_inst_sklearn dEx [0] 0 = (X_train_inst dEx [0] 0).map meanOverSlices ∧
     X_test_inst_sklearn dEx [0] 0 = (X_test_inst dEx [0] 0).map meanOverSlices ∧
     (meanOverSlices [[(1 : ℚ), 1], [3, 3]]).length = 2 ∧
     (meanOverSlices [[(1 : ℚ), 1], [3, 3]]).getD 0 0 =
       (([[(1 : ℚ), 1], [3, 3]].map (fun s => s.getD 0 0)).sum) /
         (([[(1 : ℚ), 1], [3, 3]] : List (List ℚ)).length : ℚ)) :=
  ⟨by with_unfolding_all decide,
   time_reduction_mean dEx [0] 0 [[1, 1], [3, 3]] 2 0 (by decide) (by decide) (by decide)⟩

/-! ## Metric accumulation and aggregation (cell-28) -/

/-- `np.mean` of a 1-D float array: sum divided by length. -/
def npMean (l : List ℚ) : ℚ := l.sum / (l.length : ℚ)

/-- The metric accumulation of the cell-28 loop: for each class, the
per-class `(precision, recall, fscore)` triple is computed and each
component appended to its running list
(`precision_lst = precision_lst + [precision]`, and likewise for recall
and fscore).  `score` abstracts the external classifier fit, prediction
and `precision_recall_fscore_support` call for one class, which the spec
treats as an opaque deterministic capability. -/
def metricsLoop (score : Nat → ℚ × ℚ × ℚ) :
    List Nat → List ℚ → List ℚ → List ℚ → List ℚ × List ℚ × List ℚ
  | [], pl, rl, fl => (pl, rl, fl)
  | c :: rest, pl, rl, fl =>
      metricsLoop score rest (pl ++ [(score c).1]) (rl ++ [(score c).2.1]) (fl ++ [(score c).2.2])

/-- The three headline scalars printed after the loop:
`np.mean(precision_lst)`, `np.mean(recall_lst)`, `np.mean(fscore_lst)`. -/
def runAggregates (score : Nat → ℚ × ℚ × ℚ) (classes : List Nat) : ℚ × ℚ × ℚ :=
  (npMean (metricsLoop score classes [] [] []).1,
   npMean (metricsLoop score classes [] [] []).2.1,
   npMean (metricsLoop score classes [] [] []).2.2)

lemma metricsLoop_eq (score : Nat → ℚ × ℚ × ℚ) (cs : List Nat) (pl rl fl : List ℚ) :
    metricsLoop score cs pl rl fl =
      (pl ++ cs.map (fun c => (score c).1), rl ++ cs.map (fun c => (score c).2.1),
       fl ++ cs.map (fun c => (score c).2.2)) := by
  induction cs generalizing pl rl fl with
  | nil => simp [metricsLoop]
  | cons c rest ih =>
    rw [show metricsLoop score (c :: rest) pl rl fl =
      metricsLoop score rest (pl ++ [(score c).1]) (rl ++ [(score c).2.1])
        (fl ++ [(score c).2.2]) from rfl]
    rw [ih]
    simp

lemma metricsLoop_nil_acc (score : Nat → ℚ × ℚ × ℚ) (cs : List Nat) :
    metricsLoop score cs [] [] [] =
      (cs.map (fun c => (score c).1), cs.map (fun c => (score c).2.1),
       cs.map (fun c => (score c).2.2)) := by
  rw [metricsLoop_eq]
  simp

/-- C5: the three headline scalars are the unweighted arithmetic means of
the accumulated per-class precision, recall and F1 sequences — each is
the sum over the processed classes divided by the number of classes, with
no weighting by per-class support. -/
theorem aggregate_unweighted_mean (score : Nat → ℚ × ℚ × ℚ) (classes : List Nat) :
    metricsLoop score classes [] [] [] =
      (classes.map (fun c => (score c).1), classes.map (fun c => (score c).2.1),
       classes.map (fun c => (score c).2.2)) ∧
    runAggregates score classes =
      ((classes.map (fun c => (score c).1)).sum / (classes.length : ℚ),
       (classes.map (fun c => (score c).2.1)).sum / (classes.length : ℚ),
       (classes.map (fun c => (score c).2.2)).sum / (classes.length : ℚ)) := by
  refine ⟨metricsLoop_nil_acc score classes, ?_⟩
  unfold runAggregates npMean
  rw [metricsLoop_nil_acc]
  simp [List.length_map]

/-- One iteration of the cell-28 loop for class `c`: prepare the reduced
train features, binarized train labels, reduced test features and
binarized test labels, and hand them to the opaque external
fit/predict/score capability `clf`, obtaining the class's
`(precision, recall, fscore)`. -/
def perClassScore (d : OpenMicData) (idxTr idxTe : List Nat)
    (clf : List (List ℚ) → List Bool → List (List ℚ) → List Bool → ℚ × ℚ × ℚ)
    (c : Nat) : ℚ × ℚ × ℚ :=
  clf (X_train_inst_sklearn d idxTr c) (Y_true_train_inst d idxTr c)
      (X_test_inst_sklearn d idxTe c) (Y_true_test_inst d idxTe c)

/-- The per-class loop followed by the final `np.mean` aggregation. -/
def runPipeline (d : OpenMicData) (idxTr idxTe : List Nat)
    (clf : List (List ℚ) → List Bool → List (List ℚ) → List Bool → ℚ × ℚ × ℚ)
    (classes : List Nat) : ℚ × ℚ × ℚ :=
  runAggregates (perClassScore d idxTr idxTe clf) classes

/-- C9: with the per-class fit/predict/score treated as a deterministic
function of that class's prepared data, the aggregate precision, recall
and F1 are identical under any permutation of the class processing
order. -/
theorem aggregate_order_invariant (d : OpenMicData) (idxTr idxTe : List Nat)
    (clf : List (List ℚ) → List Bool → List (List ℚ) → List Bool → ℚ × ℚ × ℚ)
    (cs₁ cs₂ : List Nat) (hperm : cs₁.Perm cs₂) :
    runPipeline d idxTr idxTe clf cs₁ = runPipeline d idxTr idxTe clf cs₂ := by
  have hsum : ∀ f : Nat → ℚ, (cs₁.map f).sum = (cs₂.map f).sum :=
    fun f => (hperm.map f).sum_eq
  have hlen : cs₁.length = cs₂.length := hperm.length_eq
  unfold runPipeline runAggregates npMean
  rw [metricsLoop_nil_acc, metricsLoop_nil_acc]
  simp only [List.length_map]
  rw [hsum (fun c => (perClassScore d idxTr idxTe clf c).1),
      hsum (fun c => (perClassScore d idxTr idxTe clf c).2.1),
      hsum (fun c => (perClassScore d idxTr idxTe clf c).2.2), hlen]

/-- A concrete stand-in for the opaque classifier capability, used only
by witnesses: it scores a class by the size and the positive count of its
binarized test label vector. -/
def clfEx : List (List ℚ) → List Bool → List (List ℚ) → List Bool → ℚ × ℚ × ℚ :=
  fun _xtr _ytr _xte yte => ((yte.length : ℚ), (yte.count true : ℚ), 0)

/-- Witness for C9: the theorem applied to a concrete two-class run and
the swap permutation. -/
theorem aggregate_order_invariant_witness :
    runPipeline dEx [0, 1, 2] [3] clfEx [0, 1] = runPipeline dEx [0, 1, 2] [3] clfEx [1, 0] :=
  aggregate_order_invariant dEx [0, 1, 2] [3] clfEx [0, 1] [1, 0] (List.Perm.swap 1 0 [])

/-- C7 counterexample: on the concrete dataset, class 1 is degenerate —
its binarized test labels are all `false` — yet the loop appends its
scores to the metric lists exactly like class 0's: the precision list
over the two classes has two entries, the second being the degenerate
class's, so the class is not skipped and not excluded from the
aggregate averages. -/
theorem degenerate_class_not_excluded :
    Y_true_test_inst dEx [2, 3] 1 = [false] ∧
    (metricsLoop (perClassScore dEx [0, 1] [2, 3] clfEx) [0, 1] [] [] []).1 =
      [(perClassScore dEx [0, 1] [2, 3] clfEx 0).1,
       (perClassScore dEx [0, 1] [2, 3] clfEx 1).1] ∧
    (metricsLoop (perClassScore dEx [0, 1] [2, 3] clfEx) [0, 1] [] [] []).1.length = 2 := by
  refine ⟨by with_unfolding_all decide, by with_unfolding_all decide,
    by with_unfolding_all decide⟩

/-- C7 amended: the reference loop has no degenerate-class handling:
whatever the per-class data looks like (degenerate or not), every class
in the class list contributes exactly one entry to each of the three
metric lists — no class is skipped, warned about, or excluded from the
aggregate averages.  (A raised exception from the external fit would
simply propagate: there is no per-class guard.) -/
theorem no_degenerate_class_guard (d : OpenMicData) (idxTr idxTe : List Nat)
    (clf : List (List ℚ) → List Bool → List (List ℚ) → List Bool → ℚ × ℚ × ℚ)
    (classes : List Nat) :
    metricsLoop (perClassScore d idxTr idxTe clf) classes [] [] [] =
      (classes.map (fun c => (perClassScore d idxTr idxTe clf c).1),
       classes.map (fun c => (perClassScore d idxTr idxTe clf c).2.1),
       classes.map (fun c => (perClassScore d idxTr idxTe clf c).2.2)) :=
  metricsLoop_nil_acc _ classes

end OpenMic
